import Mathlib

/-!
Verification of the Upgrade Resolution Engine of `nextui-cli`
(`src/helpers/upgrade.ts`): the `upgrade` orchestrator, the peer
resolver `getPackagePeerDep`, and the report renderer
`getUpgradeVersion`, shallowly embedded in Lean.

External collaborators that live outside the verified file
(`compareVersions`, `transformPeerVersion`, `getColorVersion`,
`getVersionAndMode` and the registry lookup performed through
`exec` + `JSON.parse`) are kept abstract as parameters, so every
theorem below holds for every behaviour of those collaborators.
JavaScript objects used as dependency maps are embedded as
association lists, which preserves the object's key iteration
order; in-place mutation of candidate records during rendering is
embedded as explicit state passing.
-/

set_option autoImplicit false

namespace NextUICli

/-- A `Dependencies` record (`Record<string, string>` in the source):
an association list from package name to version-range string, in the
object's key iteration order. -/
abbrev Dependencies := List (String × String)

/-- The `UpgradeOption` interface of `src/helpers/upgrade.ts`. -/
structure UpgradeOption where
  package : String
  version : String
  latestVersion : String
  isLatest : Bool
  versionMode : String
  peerDependencies : Option Dependencies
  deriving DecidableEq, Repr

/-- JavaScript `String.prototype.padEnd(n)`: pad with spaces on the
right up to length `n` (no-op when already at least that long). -/
def padEnd (s : String) (n : Nat) : String :=
  s ++ String.mk (List.replicate (n - s.length) ' ')

/-- JavaScript `String.prototype.padStart(n)`: pad with spaces on the
left up to length `n`. -/
def padStart (s : String) (n : Nat) : String :=
  String.mk (List.replicate (n - s.length) ' ') ++ s

/-- `const DEFAULT_SPACE = ''.padEnd(7)`. -/
def DEFAULT_SPACE : String := padEnd "" 7

/-- Model of `chalk.white`: wraps the text in the white / reset ANSI
escape sequences. Only the fact that it wraps matters to the claims. -/
def chalkWhite (s : String) : String := "\x1b[37m" ++ s ++ "\x1b[39m"

/-- Model of `chalk.greenBright`. -/
def chalkGreenBright (s : String) : String := "\x1b[92m" ++ s ++ "\x1b[39m"

/-- `allDependencies[name]` on a JS object: the stored string, or the
falsy `undefined` — embedded as `""`, which is equally falsy under the
`!currentVersion` test of the source. -/
def lookupDep (deps : Dependencies) (name : String) : String :=
  match deps.find? (fun e => e.1 == name) with
  | some e => e.2
  | none => ""

/-- The external helper collaborators imported by
`src/helpers/upgrade.ts` from modules outside the verified source
(`src/scripts/helpers` and `src/helpers/utils`). They are kept fully
abstract: theorems quantify over every `Helpers`.
`getVersionAndMode` returns `(currentVersion, versionMode)`. -/
structure Helpers where
  compareVersions : String → String → Int
  transformPeerVersion : String → String
  getColorVersion : String → String → String
  getVersionAndMode : Dependencies → String → String × String

/-- Modelled from the spec: the umbrella package name `NEXT_UI`
(`src/constants/required` is not part of the verified source; the
concrete string is immaterial to every claim). -/
def NEXT_UI : String := "@nextui-org/react"

/-- Modelled from the spec: the theme-companion package name
`THEME_UI`. -/
def THEME_UI : String := "@nextui-org/theme"

/-- The warning text emitted by `Logger.warn` for a peer that is not
installed. -/
def warnMissingPeer (name : String) : String :=
  s!"Missing peerDependencies: {name}, check whether it is installed"

/-- The candidate record pushed by the loop body of
`getPackagePeerDep` for an installed peer entry
`(peerPackage, peerVersion)`. -/
def mkPeerCandidate (H : Helpers) (allDependencies : Dependencies)
    (peerPackage peerVersion : String) : UpgradeOption :=
  let currentVersion := lookupDep allDependencies peerPackage
  let versionMode := (H.getVersionAndMode allDependencies peerPackage).2
  let formatPeerVersion := H.transformPeerVersion peerVersion
  let isLatest : Bool := decide (H.compareVersions currentVersion formatPeerVersion ≥ 0)
  let formatPeerVersion := if isLatest then H.transformPeerVersion currentVersion else formatPeerVersion
  { package := peerPackage
    version := currentVersion
    latestVersion :=
      if isLatest then formatPeerVersion
      else H.getColorVersion currentVersion formatPeerVersion
    isLatest := isLatest
    versionMode := versionMode
    peerDependencies := none }

/-- The `for (const [peerPackage, peerVersion] of Object.entries(...))`
loop of `getPackagePeerDep`, with the accumulated candidate list and
the `Logger.warn` transcript passed explicitly. -/
def peerLoop (H : Helpers) (allDependencies : Dependencies) :
    Dependencies → List UpgradeOption → List String →
    List UpgradeOption × List String
  | [], acc, warns => (acc, warns)
  | (peerPackage, peerVersion) :: rest, acc, warns =>
    if acc.any (fun c => c.package == peerPackage) then
      peerLoop H allDependencies rest acc warns
    else if lookupDep allDependencies peerPackage == "" then
      peerLoop H allDependencies rest acc (warns ++ [warnMissingPeer peerPackage])
    else
      peerLoop H allDependencies rest
        (acc ++ [mkPeerCandidate H allDependencies peerPackage peerVersion]) warns

/-- The peer mapping actually iterated by `getPackagePeerDep`:
`peerDependencies || JSON.parse(await exec(...)) || {}`.
`query` models the external `exec` + `JSON.parse` registry lookup
(the `exec` helper is not part of the verified source); per the spec
it is abstracted as a lookup returning a peer mapping, with `none`
standing for a failed / unparseable / `null` result, which the `|| {}`
fallback turns into the empty mapping. -/
def resolvePeerMap (query : String → Option Dependencies)
    (packageName : String) (peerDependencies : Option Dependencies) : Dependencies :=
  match peerDependencies with
  | some m => m
  | none => (query packageName).getD []

/-- `getPackagePeerDep` of `src/helpers/upgrade.ts`. Returns the
candidate list together with the `Logger.warn` transcript. -/
def getPackagePeerDep (H : Helpers) (query : String → Option Dependencies)
    (packageName : String) (allDependencies : Dependencies)
    (peerDependencies : Option Dependencies) : List UpgradeOption × List String :=
  let peerDeps := resolvePeerMap query packageName peerDependencies
  if peerDeps.isEmpty then ([], [])
  else peerLoop H allDependencies peerDeps [] []

/-- The `optionMaxLenMap` record of `getUpgradeVersion`: only the
three fields that are ever read back. -/
structure OptionMaxLenMap where
  latestVersion : Nat
  package : Nat
  version : Nat
  deriving DecidableEq, Repr

/-- The first loop of `getUpgradeVersion`: field lengths are folded
into `optionMaxLenMap` before the `version` field of the option is
mutated, so every maximum is over the strings as supplied. -/
def computeMaxLens (l : List UpgradeOption) : OptionMaxLenMap :=
  l.foldl
    (fun m o =>
      { latestVersion := max m.latestVersion o.latestVersion.length
        package := max m.package o.package.length
        version := max m.version o.version.length })
    { latestVersion := 0, package := 0, version := 0 }

/-- JavaScript `s.replace('^', '')` on the character list of `s`:
delete the first occurrence of `'^'`, leave everything else alone. -/
def removeFirstCaretList : List Char → List Char
  | [] => []
  | c :: rest => if c = '^' then rest else c :: removeFirstCaretList rest

/-- `upgradeOption.version.replace('^', '')` — the in-place version
normalization of `getUpgradeVersion`'s first loop. -/
def replaceCaret (s : String) : String :=
  String.mk (removeFirstCaretList s.data)

/-- The mutation `upgradeOption['version'] = ...replace('^', '')`
applied to one candidate record. -/
def stripVersionField (o : UpgradeOption) : UpgradeOption :=
  { o with version := replaceCaret o.version }

/-- The line pushed for an `isLatest` candidate (non-peer rendering). -/
def renderLatestRow (m : OptionMaxLenMap) (o : UpgradeOption) : String :=
  "  " ++
    chalkWhite
      (padEnd (o.package ++ "@" ++ o.versionMode ++ o.latestVersion)
        (m.package + DEFAULT_SPACE.length + DEFAULT_SPACE.length)) ++
    padStart (chalkGreenBright "latest") m.version ++ DEFAULT_SPACE

/-- The line pushed for a stale candidate. -/
def renderUpgradeRow (m : OptionMaxLenMap) (o : UpgradeOption) : String :=
  "  " ++
    chalkWhite
      (padEnd o.package (m.package + DEFAULT_SPACE.length) ++ DEFAULT_SPACE ++
        padEnd (o.versionMode ++ o.version) m.version ++ "  ->  " ++
        o.versionMode ++ o.latestVersion) ++
    DEFAULT_SPACE

/-- One iteration of the second (rendering) loop of
`getUpgradeVersion`: `none` exactly when the candidate is latest and
the list is rendered as the peer section. -/
def renderRow (m : OptionMaxLenMap) (peer : Bool) (o : UpgradeOption) : Option String :=
  if o.isLatest then
    if peer then none else some (renderLatestRow m o)
  else some (renderUpgradeRow m o)

/-- The `output` array built by `getUpgradeVersion`'s second loop
(which runs after the first loop has stripped every `version`). -/
def renderLines (l : List UpgradeOption) (peer : Bool) : List String :=
  (l.map stripVersionField).filterMap (renderRow (computeMaxLens l) peer)

/-- `getUpgradeVersion` of `src/helpers/upgrade.ts`. Returns the
joined report text together with the candidate list after the
in-place `version` mutation (the empty list takes the early return and
is not mutated). -/
def getUpgradeVersion (l : List UpgradeOption) (peer : Bool) : String × List UpgradeOption :=
  if l.isEmpty then ("", l)
  else (String.intercalate "\n" (renderLines l peer), l.map stripVersionField)

/-- `outputDependencies`: renders both sections (the `outputBox` side
effect carries no data) and, through `getUpgradeVersion`, mutates the
`version` fields of both lists. -/
def outputDependencies (outputList peerDepList : List UpgradeOption) :
    List UpgradeOption × List UpgradeOption :=
  ((getUpgradeVersion outputList false).2, (getUpgradeVersion peerDepList true).2)

/-- The `Upgrade` options record of the `upgrade` entry point. -/
structure UpgradeInput where
  isNextUIAll : Bool
  allDependencies : Dependencies
  upgradeOptionList : List UpgradeOption
  deriving Repr

/-- `upgrade` of `src/helpers/upgrade.ts`. `latestVersion` is
`store.latestVersion`, the process-wide latest-version value. -/
def upgrade (H : Helpers) (query : String → Option Dependencies)
    (latestVersion : String) (options : UpgradeInput) : List UpgradeOption :=
  if options.isNextUIAll then
    let currentVersion := (H.getVersionAndMode options.allDependencies NEXT_UI).1
    let versionMode := (H.getVersionAndMode options.allDependencies NEXT_UI).2
    let colorVersion := H.getColorVersion currentVersion latestVersion
    let isLatest : Bool := decide (H.compareVersions currentVersion latestVersion ≥ 0)
    let nextUIPeerDepList := (getPackagePeerDep H query NEXT_UI options.allDependencies none).1
    let nextUIThemePeerDepList := (getPackagePeerDep H query THEME_UI options.allDependencies none).1
    let outputList : List UpgradeOption :=
      [{ package := NEXT_UI
         version := currentVersion
         latestVersion := colorVersion
         isLatest := isLatest
         versionMode := versionMode
         peerDependencies := none }]
    let peerDepList := nextUIPeerDepList ++ nextUIThemePeerDepList
    let mutated := outputDependencies outputList peerDepList
    if !isLatest then mutated.1 ++ mutated.2.filter (fun c => !c.isLatest) else []
  else
    let transformUpgradeOptionList := options.upgradeOptionList.map
      (fun c => { c with latestVersion := H.getColorVersion c.version c.latestVersion })
    let upgradePeerList := options.upgradeOptionList.map
      (fun o => (getPackagePeerDep H query o.package options.allDependencies o.peerDependencies).1)
    let outputList := transformUpgradeOptionList
    let peerDepList := upgradePeerList.flatten
    let mutated := outputDependencies outputList peerDepList
    (mutated.1 ++ mutated.2).filter (fun o => !o.isLatest)

/-- Keep only the first entry for each peer name: the mapping that the
"first occurrence wins" dedup rule of the peer resolver describes.
`seen` is the set of names already dropped in favour of an earlier
entry. -/
def dedupByFirst : Dependencies → List String → Dependencies
  | [], _ => []
  | (n, r) :: rest, seen =>
    if n ∈ seen then dedupByFirst rest seen
    else (n, r) :: dedupByFirst rest (n :: seen)

/-- The classification contract of the peer resolver for one emitted
candidate, relative to `range`, the version range the peer mapping
declares for that candidate's package (the caller must pin `range` to
the candidate's entry in the mapping): `isLatest` holds exactly when
the installed version (`o.version`) compares `≥ 0` against the
concrete target derived from `range`, and the display `latestVersion`
is the normalized installed version when latest, the highlighted diff
of that target against the installed version otherwise. -/
def PeerClassified (H : Helpers) (range : String) (o : UpgradeOption) : Prop :=
  (o.isLatest = true ↔ H.compareVersions o.version (H.transformPeerVersion range) ≥ 0) ∧
  (o.isLatest = true → o.latestVersion = H.transformPeerVersion o.version) ∧
  (o.isLatest = false →
    o.latestVersion = H.getColorVersion o.version (H.transformPeerVersion range))

/-- A concrete sample instantiation of the abstract helper
collaborators, used only to evaluate the universally quantified
theorems below at concrete inputs. -/
def demoHelpers : Helpers where
  compareVersions a b :=
    match compare a b with
    | Ordering.lt => -1
    | Ordering.eq => 0
    | Ordering.gt => 1
  transformPeerVersion v :=
    String.mk (v.data.filter
      (fun c => !(c == '^') && !(c == '~') && !(c == '>') && !(c == '=') && !(c == ' ')))
  getColorVersion _ target := chalkGreenBright target
  getVersionAndMode deps name :=
    match (lookupDep deps name).data with
    | c :: rest =>
      if c = '^' ∨ c = '~' then (String.mk rest, String.mk [c])
      else (lookupDep deps name, "")
    | [] => ("", "")

/-- A sample external lookup that always fails, used only by
witnesses. -/
def demoQuery : String → Option Dependencies := fun _ => none

/-! ### Basic facts about the candidate mutation and the caret strip -/

@[simp]
theorem stripVersionField_package (o : UpgradeOption) :
    (stripVersionField o).package = o.package := rfl

@[simp]
theorem stripVersionField_isLatest (o : UpgradeOption) :
    (stripVersionField o).isLatest = o.isLatest := rfl

@[simp]
theorem stripVersionField_versionMode (o : UpgradeOption) :
    (stripVersionField o).versionMode = o.versionMode := rfl

@[simp]
theorem stripVersionField_latestVersion (o : UpgradeOption) :
    (stripVersionField o).latestVersion = o.latestVersion := rfl

@[simp]
theorem stripVersionField_version (o : UpgradeOption) :
    (stripVersionField o).version = replaceCaret o.version := rfl

theorem removeFirstCaretList_of_not_mem {l : List Char} (h : '^' ∉ l) :
    removeFirstCaretList l = l := by
  induction l with
  | nil => rfl
  | cons c rest ih =>
    have hc : ¬c = '^' := fun hc => h (hc ▸ List.mem_cons_self c rest)
    simp only [removeFirstCaretList, if_neg hc]
    rw [ih (fun hm => h (List.mem_cons_of_mem _ hm))]

theorem removeFirstCaretList_append {a : List Char} (b : List Char) (h : '^' ∉ a) :
    removeFirstCaretList (a ++ '^' :: b) = a ++ b := by
  induction a with
  | nil => simp [removeFirstCaretList]
  | cons c rest ih =>
    have hc : ¬c = '^' := fun hc => h (hc ▸ List.mem_cons_self c rest)
    have hih := ih (fun hm => h (List.mem_cons_of_mem _ hm))
    simp [removeFirstCaretList, if_neg hc, hih]

theorem length_removeFirstCaretList (l : List Char) :
    (removeFirstCaretList l).length = if '^' ∈ l then l.length - 1 else l.length := by
  induction l with
  | nil => rfl
  | cons c rest ih =>
    by_cases hc : c = '^'
    · subst hc
      simp [removeFirstCaretList]
    · by_cases hm : '^' ∈ rest
      · have hpos : 0 < rest.length := List.length_pos_of_mem hm
        simp only [removeFirstCaretList, if_neg hc, List.length_cons, ih, if_pos hm,
          List.mem_cons, hm, or_true, if_pos]
        have hc2 : ¬('^' = c) := fun he => hc he.symm
        simp [hc2]
        omega
      · have hm2 : '^' ∉ (c :: rest) := by
          simp [hc, hm]
          exact fun he => hc he.symm
        simp [removeFirstCaretList, if_neg hc, ih, hm, hm2]

theorem removeFirstCaretList_idem {l : List Char} (h : l.count '^' ≤ 1) :
    removeFirstCaretList (removeFirstCaretList l) = removeFirstCaretList l := by
  induction l with
  | nil => rfl
  | cons c rest ih =>
    by_cases hc : c = '^'
    · subst hc
      have hcount : rest.count '^' = 0 := by
        rw [List.count_cons] at h
        simp at h
        omega
      have hnm : '^' ∉ rest := List.count_eq_zero.mp hcount
      simp [removeFirstCaretList, removeFirstCaretList_of_not_mem hnm]
    · have hrest : rest.count '^' ≤ 1 := by
        rw [List.count_cons] at h
        have hbeq : ('^' == c) = false := beq_eq_false_iff_ne.mpr (fun he => hc he.symm)
        simpa [hbeq, hc] using h
      simp [removeFirstCaretList, if_neg hc, ih hrest]

theorem replaceCaret_of_not_mem {s : String} (h : '^' ∉ s.data) : replaceCaret s = s := by
  cases s with
  | mk d => simp [replaceCaret, removeFirstCaretList_of_not_mem h]

theorem replaceCaret_length (s : String) :
    (replaceCaret s).length = if '^' ∈ s.data then s.length - 1 else s.length := by
  cases s with
  | mk d => simpa [replaceCaret] using length_removeFirstCaretList d

/-! ### Claim C6 -/

/-- C6 (counterexample): the claim says the range-prefix normalization
applied to a candidate's version removes a single leading range
character "whether that character is a caret or a tilde".  The
normalization actually performed by `getUpgradeVersion` is
`version.replace('^', '')`, which leaves a tilde prefix in place:
at the valid version string `"~1.2.3"` it returns `"~1.2.3"`, not the
`"1.2.3"` the claim demands. -/
theorem replaceCaret_does_not_strip_tilde :
    replaceCaret "~1.2.3" = "~1.2.3" ∧ replaceCaret "~1.2.3" ≠ "1.2.3" := by
  constructor
  · decide
  · decide

/-- C6 (amended): the range-prefix normalization
(`version.replace('^', '')`) is idempotent on every version string
containing at most one caret — in particular on every valid
range-prefixed version — and it removes a single leading caret; a
leading tilde is not removed. -/
theorem replaceCaret_idem_and_strips_leading_caret (s : String)
    (h : s.data.count '^' ≤ 1) :
    replaceCaret (replaceCaret s) = replaceCaret s ∧
    (∀ t : List Char, s.data = '^' :: t → (replaceCaret s).data = t) := by
  constructor
  · cases s with
    | mk d =>
      simp only [replaceCaret]
      exact congrArg String.mk (removeFirstCaretList_idem h)
  · intro t ht
    cases s with
    | mk d =>
      simp only at ht
      subst ht
      simp [replaceCaret, removeFirstCaretList]

/-- Witness for C6 (amended) at the concrete version `"^1.0.0"`. -/
theorem replaceCaret_idem_witness :
    replaceCaret (replaceCaret "^1.0.0") = replaceCaret "^1.0.0" ∧
    (replaceCaret "^1.0.0").data = ("1.0.0" : String).data := by
  have h := replaceCaret_idem_and_strips_leading_caret "^1.0.0" (by decide)
  exact ⟨h.1, h.2 ("1.0.0" : String).data (by decide)⟩

/-! ### Claim C9 -/

/-- C9: the in-place version normalization of `getUpgradeVersion`
(`version.replace('^', '')`) removes exactly the first occurrence of
the character `'^'` anywhere in the version string and no other
character; in particular a caret-free, tilde-prefixed version is left
unchanged, so the row rendered for such a candidate contains the
`versionMode` string immediately followed by the still
tilde-prefixed version. -/
theorem render_strips_only_first_caret :
    (∀ s : String, '^' ∉ s.data → replaceCaret s = s) ∧
    (∀ a b : List Char, '^' ∉ a →
      replaceCaret (String.mk (a ++ '^' :: b)) = String.mk (a ++ b)) ∧
    (∀ (m : OptionMaxLenMap) (peer : Bool) (o : UpgradeOption),
      o.isLatest = false → o.version.data.head? = some '~' → '^' ∉ o.version.data →
      ∃ x y, renderRow m peer (stripVersionField o) =
        some (x ++ (o.versionMode ++ o.version) ++ y)) := by
  refine ⟨fun s h => replaceCaret_of_not_mem h, ?_, ?_⟩
  · intro a b h
    simp [replaceCaret, removeFirstCaretList_append b h]
  · intro m peer o hlatest _ hmem
    refine ⟨"  " ++ "\x1b[37m" ++
        (padEnd o.package (m.package + DEFAULT_SPACE.length) ++ DEFAULT_SPACE),
      String.mk (List.replicate (m.version - (o.versionMode ++ o.version).length) ' ') ++
        ("  ->  " ++ o.versionMode ++ o.latestVersion) ++ "\x1b[39m" ++ DEFAULT_SPACE, ?_⟩
    have hv : replaceCaret o.version = o.version := replaceCaret_of_not_mem hmem
    simp [renderRow, hlatest, renderUpgradeRow, chalkWhite, padEnd, hv, String.append_assoc]
    have h2 : ("  " : String) ++ "\x1b[37m" = "  \x1b[37m" := by decide
    rw [← String.append_assoc "  " "\x1b[37m", h2]

/-- Witness for C9 at a tilde-prefixed candidate: the rendered row
contains `"~" ++ "~1.2.3"`, the doubled tilde. -/
theorem render_strips_only_first_caret_witness :
    ∃ x y, renderRow ⟨0, 0, 0⟩ true
        (stripVersionField ⟨"pkg", "~1.2.3", "2.0.0", false, "~", none⟩) =
      some (x ++ ("~" ++ "~1.2.3") ++ y) :=
  render_strips_only_first_caret.2.2 ⟨0, 0, 0⟩ true
    ⟨"pkg", "~1.2.3", "2.0.0", false, "~", none⟩ rfl (by decide) (by decide)

/-! ### Claim C10 -/

theorem computeMaxLens_go (l : List UpgradeOption) (m0 : OptionMaxLenMap) :
    (l.foldl
      (fun m o =>
        { latestVersion := max m.latestVersion o.latestVersion.length
          package := max m.package o.package.length
          version := max m.version o.version.length })
      m0).version = max m0.version ((l.map fun u => u.version.length).foldr max 0) := by
  induction l generalizing m0 with
  | nil => simp
  | cons o rest ih =>
    simp only [List.foldl_cons, List.map_cons, List.foldr_cons, ih]
    exact Nat.max_assoc _ _ _

theorem computeMaxLens_version (l : List UpgradeOption) :
    (computeMaxLens l).version = (l.map fun u => u.version.length).foldr max 0 := by
  have h := computeMaxLens_go l { latestVersion := 0, package := 0, version := 0 }
  simpa [computeMaxLens] using h

theorem version_length_le_foldr {o : UpgradeOption} {l : List UpgradeOption} (h : o ∈ l) :
    o.version.length ≤ (l.map fun u => u.version.length).foldr max 0 := by
  induction l with
  | nil => cases h
  | cons a rest ih =>
    rcases List.mem_cons.mp h with rfl | hm
    · exact Nat.le_max_left _ _
    · exact le_trans (ih hm) (Nat.le_max_right _ _)

/-- C10: the version column width used for padding is the maximum of
the version string lengths exactly as supplied to the renderer (each
length is recorded before the candidate's caret is stripped), so
whenever every maximal-length version carries a caret — in particular
when the single longest version does — the computed width strictly
exceeds the length of every rendered (caret-stripped) version
string. -/
theorem version_column_width_pre_strip (l : List UpgradeOption) (_hne : l ≠ [])
    (hcaret : ∀ o ∈ l, o.version.length = (computeMaxLens l).version → '^' ∈ o.version.data) :
    (computeMaxLens l).version = (l.map fun u => u.version.length).foldr max 0 ∧
    ∀ o ∈ l, (stripVersionField o).version.length < (computeMaxLens l).version := by
  refine ⟨computeMaxLens_version l, ?_⟩
  intro o ho
  have hle : o.version.length ≤ (computeMaxLens l).version := by
    rw [computeMaxLens_version]
    exact version_length_le_foldr ho
  by_cases hm : '^' ∈ o.version.data
  · have hpos : 0 < o.version.length := List.length_pos_of_mem hm
    have hlen : (stripVersionField o).version.length = o.version.length - 1 := by
      simp [replaceCaret_length, hm]
    omega
  · have hne2 : ¬o.version.length = (computeMaxLens l).version :=
      fun he => hm (hcaret o ho he)
    have hlen : (stripVersionField o).version.length = o.version.length := by
      simp [replaceCaret_length, hm]
    omega

/-- Witness for C10: a two-candidate list whose longest version is
`"^1.0.0"`; the width is 6 and the stripped longest version has
length 5. -/
theorem version_column_width_pre_strip_witness :
    (stripVersionField ⟨"a", "^1.0.0", "1.1.0", false, "", none⟩).version.length <
      (computeMaxLens [⟨"a", "^1.0.0", "1.1.0", false, "", none⟩,
        ⟨"b", "1.0", "1.1", false, "", none⟩]).version :=
  (version_column_width_pre_strip
      [⟨"a", "^1.0.0", "1.1.0", false, "", none⟩, ⟨"b", "1.0", "1.1", false, "", none⟩]
      (by decide) (by decide)).2
    ⟨"a", "^1.0.0", "1.1.0", false, "", none⟩ (by decide)

/-! ### Claim C8 -/

theorem renderLines_length_nonpeer (m : OptionMaxLenMap) (l : List UpgradeOption) :
    (l.filterMap (fun o => renderRow m false (stripVersionField o))).length = l.length := by
  induction l with
  | nil => rfl
  | cons o rest ih =>
    have hr : ∃ s, renderRow m false (stripVersionField o) = some s := by
      cases h : o.isLatest <;> simp [renderRow, h]
    obtain ⟨s, hs⟩ := hr
    rw [List.filterMap_cons, hs]
    simp [ih]

theorem renderLines_length_peer (m : OptionMaxLenMap) (l : List UpgradeOption) :
    (l.filterMap (fun o => renderRow m true (stripVersionField o))).length =
      (l.filter (fun o => !o.isLatest)).length := by
  induction l with
  | nil => rfl
  | cons o rest ih =>
    cases h : o.isLatest
    · have hr : renderRow m true (stripVersionField o) =
          some (renderUpgradeRow m (stripVersionField o)) := by
        simp [renderRow, h]
      rw [List.filterMap_cons, hr, List.filter_cons]
      simp [h, ih]
    · have hr : renderRow m true (stripVersionField o) = none := by
        simp [renderRow, h]
      rw [List.filterMap_cons, hr, List.filter_cons]
      simp [h, ih]

theorem renderLines_eq_filterMap (l : List UpgradeOption) (peer : Bool) :
    renderLines l peer =
      l.filterMap (fun o => renderRow (computeMaxLens l) peer (stripVersionField o)) := by
  simp only [renderLines, List.filterMap_map]
  rfl

theorem length_filter_isLatest_split (l : List UpgradeOption) :
    (l.filter (fun o => !o.isLatest)).length + (l.filter (fun o => o.isLatest)).length
      = l.length := by
  induction l with
  | nil => rfl
  | cons o rest ih =>
    cases h : o.isLatest <;> simp [List.filter_cons, h] <;> omega

/-- C8: rendering the empty candidate list returns the empty string
(and performs no mutation); for every list the rendered text is the
newline-join of the output lines, and the number of output lines is
the list length minus — exactly in peer-section rendering — the number
of `isLatest` candidates: latest candidates never produce a line in
peer-section output. -/
theorem getUpgradeVersion_line_count :
    (∀ peer, getUpgradeVersion [] peer = ("", [])) ∧
    (∀ (l : List UpgradeOption) (peer : Bool),
      (getUpgradeVersion l peer).1 = String.intercalate "\n" (renderLines l peer) ∧
      (renderLines l peer).length =
        l.length - (if peer then (l.filter (fun o => o.isLatest)).length else 0)) := by
  refine ⟨fun peer => rfl, fun l peer => ⟨?_, ?_⟩⟩
  · by_cases h : l.isEmpty
    · have hl : l = [] := List.isEmpty_iff.mp h
      subst hl
      rfl
    · simp [getUpgradeVersion, h]
  · cases peer with
    | false => simp [renderLines_eq_filterMap, renderLines_length_nonpeer]
    | true =>
      have hsplit := length_filter_isLatest_split l
      simp only [renderLines_eq_filterMap, renderLines_length_peer, if_pos]
      omega

/-! ### Claim C5 -/

/-- C5: when the external peer-dependency lookup fails or returns data
that cannot be parsed as a peer mapping (modelled, per the spec's
interface for the out-of-source `exec` + `JSON.parse` pipeline, as the
lookup returning `none`), the peer resolver treats the package as
having zero peers: it returns the empty candidate list (and warns
nothing) instead of propagating an error. -/
theorem getPackagePeerDep_lookup_failure (H : Helpers)
    (query : String → Option Dependencies) (packageName : String)
    (ad : Dependencies) (h : query packageName = none) :
    getPackagePeerDep H query packageName ad none = ([], []) := by
  simp [getPackagePeerDep, resolvePeerMap, h]

/-- Witness for C5 with the always-failing lookup. -/
theorem getPackagePeerDep_lookup_failure_witness :
    getPackagePeerDep demoHelpers demoQuery "@nextui-org/react" [("a", "1.0.0")] none
      = ([], []) :=
  getPackagePeerDep_lookup_failure demoHelpers demoQuery "@nextui-org/react"
    [("a", "1.0.0")] rfl

/-! ### The peer-resolution loop: invariants -/

@[simp]
theorem mkPeerCandidate_package (H : Helpers) (ad : Dependencies) (n r : String) :
    (mkPeerCandidate H ad n r).package = n := rfl

@[simp]
theorem mkPeerCandidate_version (H : Helpers) (ad : Dependencies) (n r : String) :
    (mkPeerCandidate H ad n r).version = lookupDep ad n := rfl

theorem peerLoop_nodup (H : Helpers) (ad : Dependencies) :
    ∀ (deps : Dependencies) (acc : List UpgradeOption) (w : List String),
      (acc.map (fun o => o.package)).Nodup →
      ((peerLoop H ad deps acc w).1.map (fun o => o.package)).Nodup := by
  intro deps
  induction deps with
  | nil =>
    intro acc w h
    simpa [peerLoop] using h
  | cons e rest ih =>
    obtain ⟨n, r⟩ := e
    intro acc w h
    by_cases hacc : acc.any (fun c => c.package == n) = true
    · simpa [peerLoop, hacc] using ih acc w h
    · by_cases hmiss : (lookupDep ad n == "") = true
      · simpa [peerLoop, hacc, hmiss] using ih acc (w ++ [warnMissingPeer n]) h
      · have hnot : n ∉ acc.map (fun o => o.package) := by
          intro hmem
          obtain ⟨c, hc, hcp⟩ := List.mem_map.mp hmem
          have : acc.any (fun c => c.package == n) = true :=
            List.any_eq_true.mpr ⟨c, hc, by simp [hcp]⟩
          exact hacc this
        have hnodup : ((acc ++ [mkPeerCandidate H ad n r]).map (fun o => o.package)).Nodup := by
          simp only [List.map_append, List.map_cons, List.map_nil, mkPeerCandidate_package]
          rw [List.nodup_append]
          exact ⟨h, List.nodup_singleton n, by simpa using fun hmem => hnot hmem⟩
        simpa [peerLoop, hacc, hmiss] using
          ih (acc ++ [mkPeerCandidate H ad n r]) w hnodup

theorem peerLoop_dedup (H : Helpers) (ad : Dependencies) :
    ∀ (deps : Dependencies) (seen : List String) (acc : List UpgradeOption)
      (w1 w2 : List String),
      (∀ n ∈ seen, acc.any (fun c => c.package == n) = true ∨ lookupDep ad n = "") →
      (peerLoop H ad deps acc w1).1 = (peerLoop H ad (dedupByFirst deps seen) acc w2).1 := by
  intro deps
  induction deps with
  | nil =>
    intro seen acc w1 w2 _
    simp [peerLoop, dedupByFirst]
  | cons e rest ih =>
    obtain ⟨n, r⟩ := e
    intro seen acc w1 w2 hinv
    by_cases hseen : n ∈ seen
    · by_cases hacc : acc.any (fun c => c.package == n) = true
      · simpa [peerLoop, dedupByFirst, hseen, hacc] using ih seen acc w1 w2 hinv
      · have hmiss : lookupDep ad n = "" := (hinv n hseen).resolve_left hacc
        have hmiss2 : (lookupDep ad n == "") = true := by simp [hmiss]
        simpa [peerLoop, dedupByFirst, hseen, hacc, hmiss2] using
          ih seen acc (w1 ++ [warnMissingPeer n]) w2 hinv
    · by_cases hacc : acc.any (fun c => c.package == n) = true
      · have hinv2 : ∀ m ∈ n :: seen,
            acc.any (fun c => c.package == m) = true ∨ lookupDep ad m = "" := by
          intro m hm
          rcases List.mem_cons.mp hm with rfl | hms
          · exact Or.inl hacc
          · exact hinv m hms
        simpa [peerLoop, dedupByFirst, hseen, hacc] using ih (n :: seen) acc w1 w2 hinv2
      · by_cases hmiss : (lookupDep ad n == "") = true
        · have hinv2 : ∀ m ∈ n :: seen,
              acc.any (fun c => c.package == m) = true ∨ lookupDep ad m = "" := by
            intro m hm
            rcases List.mem_cons.mp hm with rfl | hms
            · exact Or.inr (by simpa using hmiss)
            · exact hinv m hms
          simpa [peerLoop, dedupByFirst, hseen, hacc, hmiss] using
            ih (n :: seen) acc (w1 ++ [warnMissingPeer n]) (w2 ++ [warnMissingPeer n]) hinv2
        · have hinv2 : ∀ m ∈ n :: seen,
              (acc ++ [mkPeerCandidate H ad n r]).any (fun c => c.package == m) = true ∨
                lookupDep ad m = "" := by
            intro m hm
            rcases List.mem_cons.mp hm with rfl | hms
            · refine Or.inl ?_
              rw [List.any_append]
              simp
            · rcases hinv m hms with hacc2 | hm2
              · refine Or.inl ?_
                rw [List.any_append, hacc2]
                rfl
              · exact Or.inr hm2
          simpa [peerLoop, dedupByFirst, hseen, hacc, hmiss] using
            ih (n :: seen) (acc ++ [mkPeerCandidate H ad n r]) w1 w2 hinv2

theorem dedupByFirst_nil_isEmpty (deps : Dependencies) :
    (dedupByFirst deps []).isEmpty = deps.isEmpty := by
  cases deps with
  | nil => rfl
  | cons e rest =>
    obtain ⟨n, r⟩ := e
    simp [dedupByFirst]

/-! ### Claim C3 -/

/-- C3: a single call to the peer resolver returns a candidate list
whose package names are pairwise distinct, and the returned candidates
are exactly those obtained from the peer mapping with only the first
entry kept for every duplicated name — first occurrence wins. -/
theorem getPackagePeerDep_nodup_first_wins (H : Helpers)
    (query : String → Option Dependencies) (packageName : String)
    (ad : Dependencies) (pd : Option Dependencies) :
    ((getPackagePeerDep H query packageName ad pd).1.map (fun o => o.package)).Nodup ∧
    (getPackagePeerDep H query packageName ad pd).1 =
      (getPackagePeerDep H query packageName ad
        (some (dedupByFirst (resolvePeerMap query packageName pd) []))).1 := by
  have hvac : ∀ n ∈ ([] : List String),
      ([] : List UpgradeOption).any (fun c => c.package == n) = true ∨
        lookupDep ad n = "" := by
    intro n hn
    cases hn
  constructor
  · by_cases h : (resolvePeerMap query packageName pd).isEmpty = true
    · simp [getPackagePeerDep, h]
    · have := peerLoop_nodup H ad (resolvePeerMap query packageName pd) [] [] (by simp)
      simpa [getPackagePeerDep, h] using this
  · have key : ∀ X : Dependencies,
        (if X.isEmpty then (([], []) : List UpgradeOption × List String)
          else peerLoop H ad X [] []).1 =
        (if (dedupByFirst X []).isEmpty then (([], []) : List UpgradeOption × List String)
          else peerLoop H ad (dedupByFirst X []) [] []).1 := by
      intro X
      by_cases h : X.isEmpty = true
      · rw [if_pos h, if_pos (by rw [dedupByFirst_nil_isEmpty]; exact h)]
      · rw [if_neg h, if_neg (by rw [dedupByFirst_nil_isEmpty]; exact h)]
        exact peerLoop_dedup H ad X [] [] [] [] hvac
    exact key (resolvePeerMap query packageName pd)

/-! ### Claim C4 -/

theorem peerLoop_warns (H : Helpers) (ad : Dependencies) :
    ∀ (deps : Dependencies) (acc : List UpgradeOption) (w : List String),
      (∀ o ∈ acc, ¬lookupDep ad o.package = "") →
      (peerLoop H ad deps acc w).2 =
        w ++ (deps.filter (fun e => lookupDep ad e.1 == "")).map
          (fun e => warnMissingPeer e.1) ∧
      ∀ o ∈ (peerLoop H ad deps acc w).1, ¬lookupDep ad o.package = "" := by
  intro deps
  induction deps with
  | nil =>
    intro acc w hacc
    exact ⟨by simp [peerLoop], by simpa [peerLoop] using hacc⟩
  | cons e rest ih =>
    obtain ⟨n, r⟩ := e
    intro acc w hacc
    by_cases hany : acc.any (fun c => c.package == n) = true
    · have hn : ¬lookupDep ad n = "" := by
        obtain ⟨c, hc, hcn⟩ := List.any_eq_true.mp hany
        have hcp : c.package = n := by simpa using hcn
        exact hcp ▸ hacc c hc
      have hfil : (lookupDep ad n == "") = false := by simpa using hn
      obtain ⟨ih1, ih2⟩ := ih acc w hacc
      constructor
      · simpa [peerLoop, hany, List.filter_cons, hfil] using ih1
      · simpa [peerLoop, hany] using ih2
    · by_cases hmiss : (lookupDep ad n == "") = true
      · obtain ⟨ih1, ih2⟩ := ih acc (w ++ [warnMissingPeer n]) hacc
        have hstep : peerLoop H ad ((n, r) :: rest) acc w =
            peerLoop H ad rest acc (w ++ [warnMissingPeer n]) := by
          simp [peerLoop, hany, hmiss]
        constructor
        · rw [hstep, ih1, List.filter_cons]
          simp [hmiss]
        · rw [hstep]
          exact ih2
      · have hne : ¬lookupDep ad n = "" := by
          intro hx
          exact hmiss (by simp [hx])
        have haccx : ∀ o ∈ acc ++ [mkPeerCandidate H ad n r],
            ¬lookupDep ad o.package = "" := by
          intro o ho
          rcases List.mem_append.mp ho with h1 | h2
          · exact hacc o h1
          · have heq : o = mkPeerCandidate H ad n r := by simpa using h2
            subst heq
            simpa using hne
        obtain ⟨ih1, ih2⟩ := ih (acc ++ [mkPeerCandidate H ad n r]) w haccx
        have hstep : peerLoop H ad ((n, r) :: rest) acc w =
            peerLoop H ad rest (acc ++ [mkPeerCandidate H ad n r]) w := by
          simp [peerLoop, hany, hmiss]
        constructor
        · rw [hstep, ih1, List.filter_cons]
          simp [hmiss]
        · rw [hstep]
          exact ih2

/-- C4: the warning transcript of a peer-resolver call is exactly one
warning-level diagnostic, naming the missing peer, for each peer entry
whose name is absent from the installed-dependency map (in entry
order — so processing continues past every missing peer rather than
aborting), and no candidate is ever produced for a missing name. -/
theorem getPackagePeerDep_missing_peer (H : Helpers)
    (query : String → Option Dependencies) (packageName : String)
    (ad : Dependencies) (pd : Option Dependencies) :
    (getPackagePeerDep H query packageName ad pd).2 =
      ((resolvePeerMap query packageName pd).filter
        (fun e => lookupDep ad e.1 == "")).map (fun e => warnMissingPeer e.1) ∧
    ∀ o ∈ (getPackagePeerDep H query packageName ad pd).1,
      ¬lookupDep ad o.package = "" := by
  by_cases h : (resolvePeerMap query packageName pd).isEmpty = true
  · have hnil : resolvePeerMap query packageName pd = [] := List.isEmpty_iff.mp h
    constructor
    · rw [hnil]
      simp [getPackagePeerDep, h]
    · intro o ho
      simp [getPackagePeerDep, h] at ho
  · obtain ⟨h1, h2⟩ := peerLoop_warns H ad (resolvePeerMap query packageName pd) [] []
      (by intro o ho; cases ho)
    constructor
    · simpa [getPackagePeerDep, h] using h1
    · intro o ho
      exact h2 o (by simpa [getPackagePeerDep, h] using ho)

/-- Witness for C4: peer mapping `b ↦ ^1.0.0, a ↦ ^2.0.0` over the
installed map `a ↦ 1.0.0` warns exactly once, for `b`, and the
candidate emitted for the later entry `a` names an installed
package. -/
theorem getPackagePeerDep_missing_peer_witness :
    (getPackagePeerDep demoHelpers demoQuery "p" [("a", "1.0.0")]
        (some [("b", "^1.0.0"), ("a", "^2.0.0")])).2 = [warnMissingPeer "b"] ∧
    ¬lookupDep [("a", "1.0.0")]
        (mkPeerCandidate demoHelpers [("a", "1.0.0")] "a" "^2.0.0").package = "" := by
  have h := getPackagePeerDep_missing_peer demoHelpers demoQuery "p" [("a", "1.0.0")]
    (some [("b", "^1.0.0"), ("a", "^2.0.0")])
  refine ⟨?_, h.2 (mkPeerCandidate demoHelpers [("a", "1.0.0")] "a" "^2.0.0") (by decide)⟩
  rw [h.1]
  decide

/-! ### Claim C7 -/

theorem mkPeerCandidate_classified (H : Helpers) (ad : Dependencies) (n r : String) :
    PeerClassified H r (mkPeerCandidate H ad n r) := by
  by_cases hc : H.compareVersions (lookupDep ad n) (H.transformPeerVersion r) ≥ 0
  · simp [PeerClassified, mkPeerCandidate, hc]
  · simp [PeerClassified, mkPeerCandidate, hc]

/-- Every candidate the loop emits beyond its accumulator is built by
`mkPeerCandidate` from the first entry of the remaining mapping that
carries its package name (and that name is installed and absent from
the accumulator). -/
theorem peerLoop_mem_characterize (H : Helpers) (ad : Dependencies) :
    ∀ (deps : Dependencies) (acc : List UpgradeOption) (w : List String)
      (o : UpgradeOption), o ∈ (peerLoop H ad deps acc w).1 →
      o ∈ acc ∨ ∃ r : String,
        deps.find? (fun e => e.1 == o.package) = some (o.package, r) ∧
        o = mkPeerCandidate H ad o.package r ∧
        (∀ c ∈ acc, ¬c.package = o.package) ∧
        ¬lookupDep ad o.package = "" := by
  intro deps
  induction deps with
  | nil =>
    intro acc w o ho
    exact Or.inl (by simpa [peerLoop] using ho)
  | cons e rest ih =>
    obtain ⟨n, rv⟩ := e
    intro acc w o ho
    by_cases hany : acc.any (fun c => c.package == n) = true
    · have ho2 : o ∈ (peerLoop H ad rest acc w).1 := by
        simpa [peerLoop, hany] using ho
      rcases ih acc w o ho2 with hl | ⟨r, hfind, heq, hnot, hmiss2⟩
      · exact Or.inl hl
      · refine Or.inr ⟨r, ?_, heq, hnot, hmiss2⟩
        have hno : ¬n = o.package := by
          intro he
          obtain ⟨c, hc, hcn⟩ := List.any_eq_true.mp hany
          exact hnot c hc (by rw [← he]; exact beq_iff_eq.mp hcn)
        rw [List.find?_cons_of_neg _ (by simp [hno])]
        exact hfind
    · by_cases hmiss : (lookupDep ad n == "") = true
      · have ho2 : o ∈ (peerLoop H ad rest acc (w ++ [warnMissingPeer n])).1 := by
          simpa [peerLoop, hany, hmiss] using ho
        rcases ih acc (w ++ [warnMissingPeer n]) o ho2 with hl | ⟨r, hfind, heq, hnot, hmiss2⟩
        · exact Or.inl hl
        · refine Or.inr ⟨r, ?_, heq, hnot, hmiss2⟩
          have hno : ¬n = o.package := by
            intro he
            apply hmiss2
            rw [← he]
            simpa using hmiss
          rw [List.find?_cons_of_neg _ (by simp [hno])]
          exact hfind
      · have ho2 : o ∈ (peerLoop H ad rest (acc ++ [mkPeerCandidate H ad n rv]) w).1 := by
          simpa [peerLoop, hany, hmiss] using ho
        rcases ih (acc ++ [mkPeerCandidate H ad n rv]) w o ho2
          with hl | ⟨r, hfind, heq, hnot, hmiss2⟩
        · rcases List.mem_append.mp hl with h1 | h2
          · exact Or.inl h1
          · have heq : o = mkPeerCandidate H ad n rv := by simpa using h2
            subst heq
            refine Or.inr ⟨rv, ?_, ?_, ?_, ?_⟩
            · rw [List.find?_cons_of_pos _ (by simp)]
              simp
            · simp
            · intro c hc hcp
              refine hany (List.any_eq_true.mpr ⟨c, hc, ?_⟩)
              simpa using hcp
            · intro hx
              apply hmiss
              simp only [mkPeerCandidate_package] at hx
              simp [hx]
        · have hno : ¬n = o.package := by
            intro he
            refine hnot (mkPeerCandidate H ad n rv) ?_ (by simp [he])
            exact List.mem_append.mpr (Or.inr (List.mem_singleton.mpr rfl))
          refine Or.inr ⟨r, ?_, heq, ?_, hmiss2⟩
          · rw [List.find?_cons_of_neg _ (by simp [hno])]
            exact hfind
          · intro c hc
            exact hnot c (List.mem_append.mpr (Or.inl hc))

/-- C7: every candidate emitted by the peer resolver is built from the
first entry of the resolved peer mapping carrying its package name —
so its `isLatest` flag holds exactly when the installed version
(recorded in the candidate's `version` field) compares `≥` the
concrete target derived from that peer's declared range, and its
display `latestVersion` is the normalized installed version when
latest, the highlighted diff of that target against the installed
version otherwise. -/
theorem getPackagePeerDep_classification (H : Helpers)
    (query : String → Option Dependencies) (packageName : String)
    (ad : Dependencies) (pd : Option Dependencies) :
    ∀ o ∈ (getPackagePeerDep H query packageName ad pd).1,
      ∃ range : String,
        (resolvePeerMap query packageName pd).find? (fun e => e.1 == o.package) =
          some (o.package, range) ∧
        o = mkPeerCandidate H ad o.package range ∧
        o.version = lookupDep ad o.package ∧
        PeerClassified H range o := by
  intro o ho
  by_cases h : (resolvePeerMap query packageName pd).isEmpty = true
  · simp [getPackagePeerDep, h] at ho
  · have ho2 : o ∈ (peerLoop H ad (resolvePeerMap query packageName pd) [] []).1 := by
      simpa [getPackagePeerDep, h] using ho
    rcases peerLoop_mem_characterize H ad (resolvePeerMap query packageName pd) [] [] o ho2
      with hl | ⟨r, hfind, heq, _, _⟩
    · cases hl
    · refine ⟨r, hfind, heq, ?_, ?_⟩
      · rw [heq]
        simp
      · rw [heq]
        exact mkPeerCandidate_classified H ad o.package r

/-- Witness for C7 at the installed map `a ↦ ~1.0.0` and peer mapping
`a ↦ ^2.0.0`, instantiated with the sample helpers: the emitted
candidate is classified against the range `"^2.0.0"` found at its
package's first (only) entry of the mapping. -/
theorem getPackagePeerDep_classification_witness :
    ∃ range : String,
      (resolvePeerMap demoQuery "p" (some [("a", "^2.0.0")])).find?
          (fun e => e.1 ==
            (⟨"a", "~1.0.0", "1.0.0", true, "~", none⟩ : UpgradeOption).package) =
        some ((⟨"a", "~1.0.0", "1.0.0", true, "~", none⟩ : UpgradeOption).package, range) ∧
      (⟨"a", "~1.0.0", "1.0.0", true, "~", none⟩ : UpgradeOption) =
        mkPeerCandidate demoHelpers [("a", "~1.0.0")]
          (⟨"a", "~1.0.0", "1.0.0", true, "~", none⟩ : UpgradeOption).package range ∧
      (⟨"a", "~1.0.0", "1.0.0", true, "~", none⟩ : UpgradeOption).version =
        lookupDep [("a", "~1.0.0")]
          (⟨"a", "~1.0.0", "1.0.0", true, "~", none⟩ : UpgradeOption).package ∧
      PeerClassified demoHelpers range
        (⟨"a", "~1.0.0", "1.0.0", true, "~", none⟩ : UpgradeOption) :=
  getPackagePeerDep_classification demoHelpers demoQuery "p" [("a", "~1.0.0")]
    (some [("a", "^2.0.0")]) ⟨"a", "~1.0.0", "1.0.0", true, "~", none⟩ (by decide)

/-! ### Claims C1 and C2: the upgrade engine -/

theorem getUpgradeVersion_snd (l : List UpgradeOption) (peer : Bool) :
    (getUpgradeVersion l peer).2 = l.map stripVersionField := by
  by_cases h : l.isEmpty = true
  · have hl : l = [] := List.isEmpty_iff.mp h
    subst hl
    rfl
  · simp [getUpgradeVersion, h]

theorem all_not_isLatest_filter (X : List UpgradeOption) :
    (X.filter (fun o => !o.isLatest)).all (fun o => !o.isLatest) = true := by
  rw [List.all_eq_true]
  intro o ho
  exact (List.mem_filter.mp ho).2

/-- C1: in umbrella mode the result of `upgrade` is empty whenever the
umbrella package's installed version compares `≥` the process-wide
latest version — regardless of how many peer candidates are stale —
and otherwise it is exactly the one umbrella candidate followed by
every candidate of the two peer resolutions (the umbrella's, then the
theme companion's) whose `isLatest` is false, in that order (the
`version` fields carry the caret strip performed by the report
rendering). -/
theorem upgrade_umbrella (H : Helpers) (query : String → Option Dependencies)
    (lv : String) (ad : Dependencies) (ol : List UpgradeOption) :
    upgrade H query lv ⟨true, ad, ol⟩ =
      if H.compareVersions (H.getVersionAndMode ad NEXT_UI).1 lv ≥ 0 then []
      else
        stripVersionField
          { package := NEXT_UI
            version := (H.getVersionAndMode ad NEXT_UI).1
            latestVersion := H.getColorVersion (H.getVersionAndMode ad NEXT_UI).1 lv
            isLatest := false
            versionMode := (H.getVersionAndMode ad NEXT_UI).2
            peerDependencies := none } ::
          ((((getPackagePeerDep H query NEXT_UI ad none).1 ++
              (getPackagePeerDep H query THEME_UI ad none).1).map stripVersionField).filter
            (fun c => !c.isLatest)) := by
  by_cases hc : H.compareVersions (H.getVersionAndMode ad NEXT_UI).1 lv ≥ 0
  · simp [upgrade, outputDependencies, getUpgradeVersion_snd, hc]
  · simp [upgrade, outputDependencies, getUpgradeVersion_snd, hc]

/-- C2: every candidate returned by `upgrade` — in either mode — has
`isLatest = false`; and in multi-component mode the result is exactly
the primary candidate list (with `latestVersion` rewritten to its
highlighted display form) concatenated with the flattened per-primary
peer lists, filtered to candidates with `isLatest = false` (all
`version` fields carrying the caret strip performed by rendering). -/
theorem upgrade_result_invariant (H : Helpers) (query : String → Option Dependencies)
    (lv : String) :
    (∀ options : UpgradeInput,
      (upgrade H query lv options).all (fun o => !o.isLatest) = true) ∧
    (∀ (ad : Dependencies) (ol : List UpgradeOption),
      upgrade H query lv ⟨false, ad, ol⟩ =
        ((ol.map (fun c =>
            { c with latestVersion := H.getColorVersion c.version c.latestVersion })).map
              stripVersionField ++
          ((ol.map (fun o =>
              (getPackagePeerDep H query o.package ad o.peerDependencies).1)).flatten).map
            stripVersionField).filter (fun o => !o.isLatest)) := by
  constructor
  · intro options
    obtain ⟨flag, ad, ol⟩ := options
    cases flag
    · simp only [upgrade]
      simp [all_not_isLatest_filter]
    · by_cases hc : H.compareVersions (H.getVersionAndMode ad NEXT_UI).1 lv ≥ 0
      · simp [upgrade, hc]
      · simp [upgrade, outputDependencies, getUpgradeVersion_snd, hc,
          all_not_isLatest_filter]
  · intro ad ol
    simp [upgrade, outputDependencies, getUpgradeVersion_snd]

end NextUICli
